import Mathlib

/-!
Verification of the pty relay (`src/pty.rs`).

The file shallowly embeds the program: bytes are `Nat`, fallible OS calls are
driven by explicit traces of per-call results, and the `copy` event loop is a
step function on an explicit state, applied to a list of readiness events.
Poller registration calls (`register`/`reregister`/`deregister`) are modelled
as pure interest-set updates that always succeed; their OS-level failure modes
are outside the embedding.
-/

namespace Pty

/-- Result of one `source.read(buf)` call as observed by `read_all`
(`src/pty.rs` lines 211-230): `ok bs` models `Ok(n)` where `bs` is the list of
`n` bytes the call placed in `buf` (so `ok []` is `Ok(0)`), and `err` models
`Err(_)`. -/
inductive RRes where
  | ok (bs : List Nat)
  | err
deriving DecidableEq, Repr

/-- Embedding of `read_all` (`src/pty.rs` lines 211-230) over a finite trace of
read-call results. `Ok(n)` appends `buf[0..n]` to `out` and adds `n` to `read`
and the loop continues (the `Ok(0)` arm does nothing and also continues); the
loop breaks only on `Err(_)`, and then returns `Ok(read)`. The result is the
pair (bytes appended to `out`, returned `read` count); `none` means the loop
has not returned within the given trace. -/
def read_all : List RRes → Option (List Nat × Nat)
  | [] => none
  | RRes.ok bs :: rest =>
    match read_all rest with
    | none => none
    | some (acc, n) => some (bs ++ acc, bs.length + n)
  | RRes.err :: _ => some ([], 0)

/-- Concatenation of the bytes delivered by the `Ok` results of a trace, in
order. -/
def okBytes : List RRes → List Nat
  | [] => []
  | RRes.ok bs :: rest => bs ++ okBytes rest
  | RRes.err :: rest => okBytes rest

/-- The `read` counter returned by `read_all` equals the number of bytes it
appended to the output vector. -/
theorem read_all_count (t : List RRes) :
    ∀ bs n, read_all t = some (bs, n) → n = bs.length := by
  induction t with
  | nil => intro bs n h; simp [read_all] at h
  | cons r rest ih =>
    intro bs n h
    cases r with
    | ok cs =>
      simp only [read_all] at h
      cases hrec : read_all rest with
      | none => rw [hrec] at h; simp at h
      | some p =>
        obtain ⟨acc, m⟩ := p
        rw [hrec] at h
        simp only [Option.some.injEq, Prod.mk.injEq] at h
        obtain ⟨hbs, hn⟩ := h
        have hm := ih acc m hrec
        subst hm
        rw [← hbs, ← hn, List.length_append]
    | err =>
      simp only [read_all, Option.some.injEq, Prod.mk.injEq] at h
      obtain ⟨hbs, hn⟩ := h
      rw [← hbs, ← hn]
      rfl

/-- A trace with no `err` never makes the `read_all` loop return: the `Ok(0)`
arm does not stop the loop. -/
theorem read_all_no_err (t : List RRes) :
    (∀ r ∈ t, r ≠ RRes.err) → read_all t = none := by
  induction t with
  | nil => intro _; rfl
  | cons r rest ih =>
    intro h
    cases r with
    | ok cs =>
      have hrest : read_all rest = none := ih (fun x hx => h x (List.mem_cons_of_mem _ hx))
      simp [read_all, hrest]
    | err =>
      exact absurd rfl (h RRes.err (List.mem_cons_self _ _))

/-- `read_all` returns exactly at the first `err` of its trace, having appended
exactly the bytes obtained before it, in order. -/
theorem read_all_first_err (pre rest : List RRes) :
    (∀ r ∈ pre, r ≠ RRes.err) →
      read_all (pre ++ RRes.err :: rest) = some (okBytes pre, (okBytes pre).length) := by
  induction pre with
  | nil => intro _; simp [read_all, okBytes]
  | cons r pre' ih =>
    intro h
    cases r with
    | ok cs =>
      have hrec := ih (fun x hx => h x (List.mem_cons_of_mem _ hx))
      simp [read_all, hrec, okBytes, List.length_append]
    | err =>
      exact absurd rfl (h RRes.err (List.mem_cons_self _ _))

/-- Result of one `sink.write(buf)` call as observed by `write_all`
(`src/pty.rs` lines 232-264): `ok n` models `Ok(n)` (the sink accepted `n`
bytes of the offered slice), `err` models `Err(_)`. -/
inductive WRes where
  | ok (n : Nat)
  | err
deriving DecidableEq, Repr

/-- The retry loop of `write_all` (`src/pty.rs` lines 235-251), over a finite
trace of write-call results, on the current unwritten slice `buf`. `Ok(0)`
does nothing and continues; `Ok(n)` advances the slice (`buf = &buf[n..]`) and
breaks when it becomes empty; `Err(_)` breaks. The result is the pair
(bytes accepted by the sink, in order; remaining unwritten slice); `none`
means no normal return within the trace (the loop keeps calling `write`, or a
contract-violating `Ok(n)` with `n` past the slice length makes `&buf[n..]`
panic). -/
def write_loop : List WRes → List Nat → Option (List Nat × List Nat)
  | [], _ => none
  | WRes.ok n :: rest, buf =>
    if n = 0 then write_loop rest buf
    else if n ≤ buf.length then
      if (buf.drop n).isEmpty then some (buf.take n, buf.drop n)
      else
        match write_loop rest (buf.drop n) with
        | none => none
        | some (d, r) => some (buf.take n ++ d, r)
    else none
  | WRes.err :: _, buf => some ([], buf)

/-- Embedding of `write_all` (`src/pty.rs` lines 232-264). After the retry
loop, `left = buf.len()`; if `left == 0` the vector is cleared, otherwise it
is `rotate_left(len - left)`-ed and truncated to `left` elements. The result
is (new vector contents, bytes delivered to the sink, returned `left`). -/
def write_all (trace : List WRes) (data : List Nat) : Option (List Nat × List Nat × Nat) :=
  match write_loop trace data with
  | none => none
  | some (delivered, remaining) =>
    let left := remaining.length
    if left = 0 then some ([], delivered, 0)
    else
      let rot := data.length - left
      some ((data.drop rot ++ data.take rot).take left, delivered, left)

/-- The bytes the retry loop delivered, followed by the remaining slice, are
exactly the original buffer contents. -/
theorem write_loop_append (t : List WRes) :
    ∀ buf d r, write_loop t buf = some (d, r) → d ++ r = buf := by
  induction t with
  | nil => intro buf d r h; simp [write_loop] at h
  | cons w rest ih =>
    intro buf d r h
    cases w with
    | ok n =>
      simp only [write_loop] at h
      by_cases hn : n = 0
      · rw [if_pos hn] at h
        exact ih buf d r h
      · rw [if_neg hn] at h
        by_cases hle : n ≤ buf.length
        · rw [if_pos hle] at h
          by_cases hemp : (buf.drop n).isEmpty
          · rw [if_pos hemp] at h
            simp only [Option.some.injEq, Prod.mk.injEq] at h
            obtain ⟨hd, hr⟩ := h
            rw [← hd, ← hr, List.take_append_drop]
          · rw [if_neg hemp] at h
            cases hrec : write_loop rest (buf.drop n) with
            | none => rw [hrec] at h; simp at h
            | some p =>
              obtain ⟨d', r'⟩ := p
              rw [hrec] at h
              simp only [Option.some.injEq, Prod.mk.injEq] at h
              obtain ⟨hd, hr⟩ := h
              have := ih (buf.drop n) d' r' hrec
              rw [← hd, ← hr, List.append_assoc, this, List.take_append_drop]
        · rw [if_neg hle] at h
          simp at h
    | err =>
      simp only [write_loop, Option.some.injEq, Prod.mk.injEq] at h
      obtain ⟨hd, hr⟩ := h
      rw [← hd, ← hr]
      rfl

/-- Specification of `write_all`: when it returns, the vector holds exactly
the last `left` bytes of its original contents and the first
`len - left` bytes were delivered to the sink, in order. -/
theorem write_all_spec (trace : List WRes) (data d2 del : List Nat) (left : Nat) :
    write_all trace data = some (d2, del, left) →
      del ++ d2 = data ∧
      d2 = data.drop (data.length - left) ∧
      del = data.take (data.length - left) ∧
      d2.length = left ∧
      left ≤ data.length := by
  intro h
  simp only [write_all] at h
  cases hloop : write_loop trace data with
  | none => rw [hloop] at h; simp at h
  | some p =>
    obtain ⟨delivered, remaining⟩ := p
    rw [hloop] at h
    dsimp only at h
    have happ := write_loop_append trace data delivered remaining hloop
    by_cases hz : remaining.length = 0
    · rw [if_pos hz] at h
      simp only [Option.some.injEq, Prod.mk.injEq] at h
      obtain ⟨h1, h2, h3⟩ := h
      have hrem : remaining = [] := List.eq_nil_of_length_eq_zero hz
      rw [hrem, List.append_nil] at happ
      subst h3
      refine ⟨?_, ?_, ?_, ?_, ?_⟩
      · rw [← h1, ← h2, List.append_nil, happ]
      · rw [← h1]; simp
      · rw [← h2, happ]; simp
      · rw [← h1]; rfl
      · exact Nat.zero_le _
    · rw [if_neg hz] at h
      simp only [Option.some.injEq, Prod.mk.injEq] at h
      obtain ⟨h1, h2, h3⟩ := h
      have hlen : delivered.length + remaining.length = data.length := by
        rw [← happ, List.length_append]
      have hleft_le : remaining.length ≤ data.length := by omega
      have hrot : data.length - remaining.length = delivered.length := by omega
      have hsplit : delivered ++ remaining =
          data.take delivered.length ++ data.drop delivered.length := by
        rw [List.take_append_drop]; exact happ
      have hlen_take : (data.take delivered.length).length = delivered.length := by
        rw [List.length_take]; omega
      have hpair := List.append_inj hsplit (by rw [hlen_take])
      obtain ⟨hdel, hrem⟩ := hpair
      subst h3
      have hdrop_len : (data.drop (data.length - remaining.length)).length
          = remaining.length := by
        rw [List.length_drop]; omega
      have hd2 : (data.drop (data.length - remaining.length) ++
          data.take (data.length - remaining.length)).take remaining.length
          = data.drop (data.length - remaining.length) := by
        rw [List.take_append_eq_append_take, hdrop_len, Nat.sub_self, List.take_zero,
          List.append_nil]
        exact List.take_of_length_le (le_of_eq hdrop_len)
      refine ⟨?_, ?_, ?_, ?_, hleft_le⟩
      · rw [← h2, ← h1, hd2, hrot, ← hrem]; exact happ
      · rw [← h1, hd2]
      · rw [← h2, hrot]; exact hdel
      · rw [← h1, hd2, hdrop_len]

/-- Interest sets the `copy` loop ever registers for a descriptor:
`READABLE` alone or `READABLE | WRITABLE`. -/
inductive Interest where
  | r
  | rw
deriving DecidableEq, Repr

/-- State of the `copy` event loop (`src/pty.rs` lines 76-184): the two
transfer buffers, the flush flag, and each descriptor's registered interest
set (`none` after `deregister`).  The remaining fields are ghost observables:
`recOut`/`recIn` concatenate the arguments of all `recorder.output` /
`recorder.input` calls, `masterRead`/`ttyRead` concatenate all bytes
`read_all` obtained from each descriptor, and `masterWritten`/`ttyWritten`
concatenate all bytes each descriptor accepted in `write_all`. -/
structure PumpState where
  output : List Nat
  input : List Nat
  flush : Bool
  masterI : Option Interest
  ttyI : Option Interest
  recOut : List Nat
  recIn : List Nat
  masterRead : List Nat
  ttyRead : List Nat
  masterWritten : List Nat
  ttyWritten : List Nat
deriving DecidableEq, Repr

/-- State on entry to the poll loop: empty buffers, `flush = false`, both
descriptors registered with `READABLE` interest (lines 84-96). -/
def initState : PumpState :=
  { output := [], input := [], flush := false
    masterI := some Interest.r, ttyI := some Interest.r
    recOut := [], recIn := [], masterRead := [], ttyRead := []
    masterWritten := [], ttyWritten := [] }

/-- One readiness event for one descriptor, together with the environment's
behaviour during its handling: `rtrace` drives the `source.read` calls of
`read_all`, `wtrace` the `sink.write` calls of `write_all`. -/
structure Ev where
  readable : Bool
  writable : Bool
  readClosed : Bool
  rtrace : List RRes
  wtrace : List WRes
deriving DecidableEq, Repr

/-- The `event.is_readable()` arm of the `MASTER` token (lines 104-117):
drain the master into the output buffer; if bytes were obtained, pass exactly
the new bytes to `recorder.output` and reregister the tty for
`READABLE | WRITABLE`. -/
def mReadPhase (ev : Ev) (s : PumpState) : Option PumpState :=
  if ev.readable then
    match read_all ev.rtrace with
    | none => none
    | some (bs, n) =>
      some { s with output := s.output ++ bs
                    masterRead := s.masterRead ++ bs
                    recOut := if 0 < n then s.recOut ++ bs else s.recOut
                    ttyI := if 0 < n then some Interest.rw else s.ttyI }
  else some s

/-- The `event.is_writable()` arm of the `MASTER` token (lines 119-129): flush
the input buffer to the master; if it drained fully, reregister the master
for `READABLE` only. -/
def mWritePhase (ev : Ev) (s : PumpState) : Option PumpState :=
  if ev.writable then
    match write_all ev.wtrace s.input with
    | none => none
    | some (data2, delivered, left) =>
      some { s with input := data2
                    masterWritten := s.masterWritten ++ delivered
                    masterI := if left = 0 then some Interest.r else s.masterI }
  else some s

/-- Outcome of handling one event: the loop continues, or `copy` returns
`Ok(())` with the state it held at that return. -/
inductive StepRes where
  | cont (s : PumpState)
  | done (s : PumpState)
deriving DecidableEq, Repr

/-- The state carried by a step outcome. -/
def StepRes.state : StepRes → PumpState
  | StepRes.cont s => s
  | StepRes.done s => s

/-- The `event.is_read_closed()` arm of the `MASTER` token (lines 131-139):
deregister the master; if the output buffer is non-empty set `flush` and keep
running, otherwise return `Ok(())`. -/
def mClosePhase (ev : Ev) (s : PumpState) : StepRes :=
  if ev.readClosed then
    if s.output.isEmpty then
      StepRes.done { s with masterI := none }
    else
      StepRes.cont { s with masterI := none, flush := true }
  else StepRes.cont s

/-- Handling of one `MASTER` event (lines 103-140): the readable, writable and
read-closed conditions are processed in that order. -/
def stepMaster (ev : Ev) (s : PumpState) : Option StepRes :=
  match mReadPhase ev s with
  | none => none
  | some s1 =>
    match mWritePhase ev s1 with
    | none => none
    | some s2 => some (mClosePhase ev s2)

/-- The `event.is_writable()` arm of the `TTY` token (lines 143-157): flush
the output buffer to the tty; if it drained fully, return `Ok(())` when
`flush` is set (`Sum.inr`), else reregister the tty for `READABLE` only. -/
def tWritePhase (ev : Ev) (s : PumpState) : Option (PumpState ⊕ PumpState) :=
  if ev.writable then
    match write_all ev.wtrace s.output with
    | none => none
    | some (data2, delivered, left) =>
      if left = 0 then
        if s.flush then
          some (Sum.inr { s with output := data2, ttyWritten := s.ttyWritten ++ delivered })
        else
          some (Sum.inl { s with output := data2, ttyWritten := s.ttyWritten ++ delivered
                                 ttyI := some Interest.r })
      else
        some (Sum.inl { s with output := data2, ttyWritten := s.ttyWritten ++ delivered })
  else some (Sum.inl s)

/-- The `event.is_readable()` arm of the `TTY` token (lines 159-172): drain
the tty into the input buffer; if bytes were obtained, pass exactly the new
bytes to `recorder.input` and reregister the master for
`READABLE | WRITABLE`. -/
def tReadPhase (ev : Ev) (s : PumpState) : Option PumpState :=
  if ev.readable then
    match read_all ev.rtrace with
    | none => none
    | some (bs, n) =>
      some { s with input := s.input ++ bs
                    ttyRead := s.ttyRead ++ bs
                    recIn := if 0 < n then s.recIn ++ bs else s.recIn
                    masterI := if 0 < n then some Interest.rw else s.masterI }
  else some s

/-- The `event.is_read_closed()` arm of the `TTY` token (lines 174-177):
deregister the tty and return `Ok(())` at once, whatever the buffers hold. -/
def tClosePhase (ev : Ev) (s : PumpState) : StepRes :=
  if ev.readClosed then StepRes.done { s with ttyI := none }
  else StepRes.cont s

/-- Handling of one `TTY` event (lines 142-178): writable first (its
`return Ok(())` on a completed flush skips the rest), then readable, then
read-closed. -/
def stepTty (ev : Ev) (s : PumpState) : Option StepRes :=
  match tWritePhase ev s with
  | none => none
  | some (Sum.inr s1) => some (StepRes.done s1)
  | some (Sum.inl s1) =>
    match tReadPhase ev s1 with
    | none => none
    | some s2 => some (tClosePhase ev s2)

/-- A readiness event as delivered by the poller: which token it is for, and
its conditions. -/
inductive PEvent where
  | master (ev : Ev)
  | tty (ev : Ev)
deriving DecidableEq, Repr

/-- Dispatch of one event in the `for event in events.iter()` body
(lines 101-181). -/
def copy_step : PEvent → PumpState → Option StepRes
  | PEvent.master ev, s => stepMaster ev s
  | PEvent.tty ev, s => stepTty ev s

/-- The `copy` loop over a finite sequence of readiness events: events are
handled in order; a `return Ok(())` ends the run and discards the rest; an
exhausted list means the loop is still running (blocked on `poll`). -/
def copy_run : List PEvent → PumpState → Option StepRes
  | [], s => some (StepRes.cont s)
  | e :: es, s =>
    match copy_step e s with
    | none => none
    | some (StepRes.done s') => some (StepRes.done s')
    | some (StepRes.cont s') => copy_run es s'

/-- The state carried by either side of a `tWritePhase` result. -/
def sumState : PumpState ⊕ PumpState → PumpState
  | Sum.inl s => s
  | Sum.inr s => s

/-- Stream accounting of the pump state: the recorder has been notified of
exactly the bytes read from each descriptor, and every byte read from one
descriptor has either been written to the opposite one or still sits in the
corresponding transfer buffer. -/
def GhostInv (s : PumpState) : Prop :=
  s.recOut = s.masterRead ∧
  s.recIn = s.ttyRead ∧
  s.ttyWritten ++ s.output = s.masterRead ∧
  s.masterWritten ++ s.input = s.ttyRead

/-- Handling the master-readable condition preserves the stream accounting. -/
theorem mReadPhase_ghost (ev : Ev) (s s' : PumpState) :
    mReadPhase ev s = some s' → GhostInv s → GhostInv s' := by
  intro h hInv
  obtain ⟨h1, h2, h3, h4⟩ := hInv
  simp only [mReadPhase] at h
  by_cases hr : ev.readable
  · rw [if_pos hr] at h
    cases hra : read_all ev.rtrace with
    | none => rw [hra] at h; simp at h
    | some p =>
      obtain ⟨bs, n⟩ := p
      rw [hra] at h
      simp only [Option.some.injEq] at h
      have hn := read_all_count ev.rtrace bs n hra
      subst hn
      subst h
      refine ⟨?_, h2, ?_, h4⟩
      · dsimp only
        by_cases hpos : 0 < bs.length
        · rw [if_pos hpos, h1]
        · have hbs : bs = [] := List.eq_nil_of_length_eq_zero (by omega)
          rw [if_neg hpos, hbs, List.append_nil, h1]
      · dsimp only
        rw [← List.append_assoc, h3]
  · rw [if_neg hr] at h
    simp only [Option.some.injEq] at h
    subst h
    exact ⟨h1, h2, h3, h4⟩

/-- Handling the master-writable condition preserves the stream accounting. -/
theorem mWritePhase_ghost (ev : Ev) (s s' : PumpState) :
    mWritePhase ev s = some s' → GhostInv s → GhostInv s' := by
  intro h hInv
  obtain ⟨h1, h2, h3, h4⟩ := hInv
  simp only [mWritePhase] at h
  by_cases hw : ev.writable
  · rw [if_pos hw] at h
    cases hwa : write_all ev.wtrace s.input with
    | none => rw [hwa] at h; simp at h
    | some p =>
      obtain ⟨data2, delivered, left⟩ := p
      rw [hwa] at h
      simp only [Option.some.injEq] at h
      subst h
      have hsp := write_all_spec ev.wtrace s.input data2 delivered left hwa
      refine ⟨h1, h2, h3, ?_⟩
      · dsimp only
        rw [List.append_assoc, hsp.1, h4]
  · rw [if_neg hw] at h
    simp only [Option.some.injEq] at h
    subst h
    exact ⟨h1, h2, h3, h4⟩

/-- Handling the master-read-closed condition preserves the stream
accounting. -/
theorem mClosePhase_ghost (ev : Ev) (s : PumpState) :
    GhostInv s → GhostInv (mClosePhase ev s).state := by
  intro hInv
  obtain ⟨h1, h2, h3, h4⟩ := hInv
  simp only [mClosePhase]
  by_cases hc : ev.readClosed
  · rw [if_pos hc]
    by_cases he : s.output.isEmpty
    · rw [if_pos he]; exact ⟨h1, h2, h3, h4⟩
    · rw [if_neg he]; exact ⟨h1, h2, h3, h4⟩
  · rw [if_neg hc]; exact ⟨h1, h2, h3, h4⟩

/-- Handling the tty-writable condition preserves the stream accounting. -/
theorem tWritePhase_ghost (ev : Ev) (s : PumpState) (r : PumpState ⊕ PumpState) :
    tWritePhase ev s = some r → GhostInv s → GhostInv (sumState r) := by
  intro h hInv
  obtain ⟨h1, h2, h3, h4⟩ := hInv
  simp only [tWritePhase] at h
  by_cases hw : ev.writable
  · rw [if_pos hw] at h
    cases hwa : write_all ev.wtrace s.output with
    | none => rw [hwa] at h; simp at h
    | some p =>
      obtain ⟨data2, delivered, left⟩ := p
      rw [hwa] at h
      dsimp only at h
      have hsp := write_all_spec ev.wtrace s.output data2 delivered left hwa
      have hout : s.ttyWritten ++ delivered ++ data2 = s.masterRead := by
        rw [List.append_assoc, hsp.1, h3]
      by_cases hz : left = 0
      · rw [if_pos hz] at h
        by_cases hf : s.flush
        · rw [if_pos hf] at h
          simp only [Option.some.injEq] at h
          subst h
          exact ⟨h1, h2, hout, h4⟩
        · rw [if_neg hf] at h
          simp only [Option.some.injEq] at h
          subst h
          exact ⟨h1, h2, hout, h4⟩
      · rw [if_neg hz] at h
        simp only [Option.some.injEq] at h
        subst h
        exact ⟨h1, h2, hout, h4⟩
  · rw [if_neg hw] at h
    simp only [Option.some.injEq] at h
    subst h
    exact ⟨h1, h2, h3, h4⟩

/-- Handling the tty-readable condition preserves the stream accounting. -/
theorem tReadPhase_ghost (ev : Ev) (s s' : PumpState) :
    tReadPhase ev s = some s' → GhostInv s → GhostInv s' := by
  intro h hInv
  obtain ⟨h1, h2, h3, h4⟩ := hInv
  simp only [tReadPhase] at h
  by_cases hr : ev.readable
  · rw [if_pos hr] at h
    cases hra : read_all ev.rtrace with
    | none => rw [hra] at h; simp at h
    | some p =>
      obtain ⟨bs, n⟩ := p
      rw [hra] at h
      simp only [Option.some.injEq] at h
      have hn := read_all_count ev.rtrace bs n hra
      subst hn
      subst h
      refine ⟨h1, ?_, h3, ?_⟩
      · dsimp only
        by_cases hpos : 0 < bs.length
        · rw [if_pos hpos, h2]
        · have hbs : bs = [] := List.eq_nil_of_length_eq_zero (by omega)
          rw [if_neg hpos, hbs, List.append_nil, h2]
      · dsimp only
        rw [← List.append_assoc, h4]
  · rw [if_neg hr] at h
    simp only [Option.some.injEq] at h
    subst h
    exact ⟨h1, h2, h3, h4⟩

/-- Handling the tty-read-closed condition preserves the stream accounting. -/
theorem tClosePhase_ghost (ev : Ev) (s : PumpState) :
    GhostInv s → GhostInv (tClosePhase ev s).state := by
  intro hInv
  obtain ⟨h1, h2, h3, h4⟩ := hInv
  simp only [tClosePhase]
  by_cases hc : ev.readClosed
  · rw [if_pos hc]; exact ⟨h1, h2, h3, h4⟩
  · rw [if_neg hc]; exact ⟨h1, h2, h3, h4⟩

/-- One event step preserves the stream accounting. -/
theorem copy_step_ghost (e : PEvent) (s : PumpState) (res : StepRes) :
    copy_step e s = some res → GhostInv s → GhostInv res.state := by
  intro h hInv
  cases e with
  | master ev =>
    simp only [copy_step, stepMaster] at h
    cases hm1 : mReadPhase ev s with
    | none => rw [hm1] at h; simp at h
    | some s1 =>
      rw [hm1] at h
      dsimp only at h
      cases hm2 : mWritePhase ev s1 with
      | none => rw [hm2] at h; simp at h
      | some s2 =>
        rw [hm2] at h
        dsimp only at h
        simp only [Option.some.injEq] at h
        subst h
        exact mClosePhase_ghost ev s2
          (mWritePhase_ghost ev s1 s2 hm2 (mReadPhase_ghost ev s s1 hm1 hInv))
  | tty ev =>
    simp only [copy_step, stepTty] at h
    cases ht1 : tWritePhase ev s with
    | none => rw [ht1] at h; simp at h
    | some r =>
      rw [ht1] at h
      have hg1 := tWritePhase_ghost ev s r ht1 hInv
      cases r with
      | inr s1 =>
        dsimp only at h
        simp only [Option.some.injEq] at h
        subst h
        exact hg1
      | inl s1 =>
        dsimp only at h
        cases ht2 : tReadPhase ev s1 with
        | none => rw [ht2] at h; simp at h
        | some s2 =>
          rw [ht2] at h
          dsimp only at h
          simp only [Option.some.injEq] at h
          subst h
          exact tClosePhase_ghost ev s2 (tReadPhase_ghost ev s1 s2 ht2 hg1)

/-- Any run of the pump preserves the stream accounting. -/
theorem copy_run_ghost (evs : List PEvent) : ∀ s res,
    copy_run evs s = some res → GhostInv s → GhostInv res.state := by
  induction evs with
  | nil =>
    intro s res h hInv
    simp only [copy_run, Option.some.injEq] at h
    subst h
    exact hInv
  | cons e es ih =>
    intro s res h hInv
    simp only [copy_run] at h
    cases hstep : copy_step e s with
    | none => rw [hstep] at h; simp at h
    | some r =>
      rw [hstep] at h
      have hr := copy_step_ghost e s r hstep hInv
      cases r with
      | done s' =>
        simp only [Option.some.injEq] at h
        subst h
        exact hr
      | cont s' => exact ih s' res h hr

/-- The stream accounting holds at loop entry. -/
theorem initState_ghost : GhostInv initState :=
  ⟨rfl, rfl, rfl, rfl⟩

/-- Interest-set invariant of the pump: whenever the input buffer is
non-empty and the master is still registered, the master's interest includes
`WRITABLE`; whenever the output buffer is non-empty, the tty's interest
includes `WRITABLE`. -/
def InterestInv (s : PumpState) : Prop :=
  (s.input ≠ [] → ∀ i, s.masterI = some i → i = Interest.rw) ∧
  (s.output ≠ [] → s.ttyI = some Interest.rw)

/-- Handling the master-readable condition preserves the interest-set
invariant. -/
theorem mReadPhase_interest (ev : Ev) (s s' : PumpState) :
    mReadPhase ev s = some s' → InterestInv s → InterestInv s' := by
  intro h hInv
  obtain ⟨h1, h2⟩ := hInv
  simp only [mReadPhase] at h
  by_cases hr : ev.readable
  · rw [if_pos hr] at h
    cases hra : read_all ev.rtrace with
    | none => rw [hra] at h; simp at h
    | some p =>
      obtain ⟨bs, n⟩ := p
      rw [hra] at h
      simp only [Option.some.injEq] at h
      have hn := read_all_count ev.rtrace bs n hra
      subst hn
      subst h
      constructor
      · exact h1
      · dsimp only
        intro hne
        by_cases hpos : 0 < bs.length
        · rw [if_pos hpos]
        · have hbs : bs = [] := List.eq_nil_of_length_eq_zero (by omega)
          rw [if_neg hpos]
          rw [hbs, List.append_nil] at hne
          exact h2 hne
  · rw [if_neg hr] at h
    simp only [Option.some.injEq] at h
    subst h
    exact ⟨h1, h2⟩

/-- Handling the master-writable condition preserves the interest-set
invariant. -/
theorem mWritePhase_interest (ev : Ev) (s s' : PumpState) :
    mWritePhase ev s = some s' → InterestInv s → InterestInv s' := by
  intro h hInv
  obtain ⟨h1, h2⟩ := hInv
  simp only [mWritePhase] at h
  by_cases hw : ev.writable
  · rw [if_pos hw] at h
    cases hwa : write_all ev.wtrace s.input with
    | none => rw [hwa] at h; simp at h
    | some p =>
      obtain ⟨data2, delivered, left⟩ := p
      rw [hwa] at h
      simp only [Option.some.injEq] at h
      subst h
      have hsp := write_all_spec ev.wtrace s.input data2 delivered left hwa
      constructor
      · dsimp only
        intro hne i hi
        have hz : ¬left = 0 := by
          intro hz0
          apply hne
          have := hsp.2.2.2.1
          rw [hz0] at this
          exact List.eq_nil_of_length_eq_zero this
        rw [if_neg hz] at hi
        have hpre : s.input ≠ [] := by
          intro hnil
          rw [hnil] at hsp
          have h0 := hsp.1
          have : data2 = [] := (List.append_eq_nil.mp h0).2
          exact hne this
        exact h1 hpre i hi
      · exact h2
  · rw [if_neg hw] at h
    simp only [Option.some.injEq] at h
    subst h
    exact ⟨h1, h2⟩

/-- Handling the master-read-closed condition preserves the interest-set
invariant on the continuing branch. -/
theorem mClosePhase_interest (ev : Ev) (s s' : PumpState) :
    mClosePhase ev s = StepRes.cont s' → InterestInv s → InterestInv s' := by
  intro h hInv
  obtain ⟨h1, h2⟩ := hInv
  simp only [mClosePhase] at h
  by_cases hc : ev.readClosed
  · rw [if_pos hc] at h
    by_cases he : s.output.isEmpty
    · rw [if_pos he] at h; simp at h
    · rw [if_neg he] at h
      simp only [StepRes.cont.injEq] at h
      subst h
      exact ⟨fun _ i hi => by simp at hi, fun hne => h2 hne⟩
  · rw [if_neg hc] at h
    simp only [StepRes.cont.injEq] at h
    subst h
    exact ⟨h1, h2⟩

/-- Handling the tty-writable condition preserves the interest-set invariant
on the continuing branch. -/
theorem tWritePhase_interest (ev : Ev) (s s1 : PumpState) :
    tWritePhase ev s = some (Sum.inl s1) → InterestInv s → InterestInv s1 := by
  intro h hInv
  obtain ⟨h1, h2⟩ := hInv
  simp only [tWritePhase] at h
  by_cases hw : ev.writable
  · rw [if_pos hw] at h
    cases hwa : write_all ev.wtrace s.output with
    | none => rw [hwa] at h; simp at h
    | some p =>
      obtain ⟨data2, delivered, left⟩ := p
      rw [hwa] at h
      dsimp only at h
      have hsp := write_all_spec ev.wtrace s.output data2 delivered left hwa
      by_cases hz : left = 0
      · rw [if_pos hz] at h
        by_cases hf : s.flush
        · rw [if_pos hf] at h; simp at h
        · rw [if_neg hf] at h
          simp only [Option.some.injEq, Sum.inl.injEq] at h
          subst h
          refine ⟨h1, ?_⟩
          dsimp only
          intro hne
          exfalso
          apply hne
          have := hsp.2.2.2.1
          rw [hz] at this
          exact List.eq_nil_of_length_eq_zero this
      · rw [if_neg hz] at h
        simp only [Option.some.injEq, Sum.inl.injEq] at h
        subst h
        refine ⟨h1, ?_⟩
        dsimp only
        intro _
        have hpre : s.output ≠ [] := by
          intro hnil
          rw [hnil] at hsp
          have h0 := hsp.1
          have hd2 : data2 = [] := (List.append_eq_nil.mp h0).2
          apply hz
          rw [← hsp.2.2.2.1, hd2]
          rfl
        exact h2 hpre
  · rw [if_neg hw] at h
    simp only [Option.some.injEq, Sum.inl.injEq] at h
    subst h
    exact ⟨h1, h2⟩

/-- Handling the tty-readable condition preserves the interest-set
invariant. -/
theorem tReadPhase_interest (ev : Ev) (s s' : PumpState) :
    tReadPhase ev s = some s' → InterestInv s → InterestInv s' := by
  intro h hInv
  obtain ⟨h1, h2⟩ := hInv
  simp only [tReadPhase] at h
  by_cases hr : ev.readable
  · rw [if_pos hr] at h
    cases hra : read_all ev.rtrace with
    | none => rw [hra] at h; simp at h
    | some p =>
      obtain ⟨bs, n⟩ := p
      rw [hra] at h
      simp only [Option.some.injEq] at h
      have hn := read_all_count ev.rtrace bs n hra
      subst hn
      subst h
      constructor
      · dsimp only
        intro hne i hi
        by_cases hpos : 0 < bs.length
        · rw [if_pos hpos] at hi
          injection hi with hi
          exact hi.symm
        · have hbs : bs = [] := List.eq_nil_of_length_eq_zero (by omega)
          rw [if_neg hpos] at hi
          rw [hbs, List.append_nil] at hne
          exact h1 hne i hi
      · exact h2
  · rw [if_neg hr] at h
    simp only [Option.some.injEq] at h
    subst h
    exact ⟨h1, h2⟩

/-- Handling the tty-read-closed condition preserves the interest-set
invariant on the continuing branch. -/
theorem tClosePhase_interest (ev : Ev) (s s' : PumpState) :
    tClosePhase ev s = StepRes.cont s' → InterestInv s → InterestInv s' := by
  intro h hInv
  simp only [tClosePhase] at h
  by_cases hc : ev.readClosed
  · rw [if_pos hc] at h; simp at h
  · rw [if_neg hc] at h
    simp only [StepRes.cont.injEq] at h
    subst h
    exact hInv

/-- One continuing event step preserves the interest-set invariant. -/
theorem copy_step_interest (e : PEvent) (s s' : PumpState) :
    copy_step e s = some (StepRes.cont s') → InterestInv s → InterestInv s' := by
  intro h hInv
  cases e with
  | master ev =>
    simp only [copy_step, stepMaster] at h
    cases hm1 : mReadPhase ev s with
    | none => rw [hm1] at h; simp at h
    | some s1 =>
      rw [hm1] at h
      dsimp only at h
      cases hm2 : mWritePhase ev s1 with
      | none => rw [hm2] at h; simp at h
      | some s2 =>
        rw [hm2] at h
        dsimp only at h
        simp only [Option.some.injEq] at h
        exact mClosePhase_interest ev s2 s' h
          (mWritePhase_interest ev s1 s2 hm2 (mReadPhase_interest ev s s1 hm1 hInv))
  | tty ev =>
    simp only [copy_step, stepTty] at h
    cases ht1 : tWritePhase ev s with
    | none => rw [ht1] at h; simp at h
    | some r =>
      rw [ht1] at h
      cases r with
      | inr s1 =>
        dsimp only at h
        simp at h
      | inl s1 =>
        dsimp only at h
        cases ht2 : tReadPhase ev s1 with
        | none => rw [ht2] at h; simp at h
        | some s2 =>
          rw [ht2] at h
          dsimp only at h
          simp only [Option.some.injEq] at h
          exact tClosePhase_interest ev s2 s' h
            (tReadPhase_interest ev s1 s2 ht2 (tWritePhase_interest ev s s1 ht1 hInv))

/-- A run of the pump that is still blocked on the poller satisfies the
interest-set invariant. -/
theorem copy_run_interest (evs : List PEvent) : ∀ s s',
    copy_run evs s = some (StepRes.cont s') → InterestInv s → InterestInv s' := by
  induction evs with
  | nil =>
    intro s s' h hInv
    simp only [copy_run, Option.some.injEq, StepRes.cont.injEq] at h
    subst h
    exact hInv
  | cons e es ih =>
    intro s s' h hInv
    simp only [copy_run] at h
    cases hstep : copy_step e s with
    | none => rw [hstep] at h; simp at h
    | some r =>
      rw [hstep] at h
      cases r with
      | done s1 => simp at h
      | cont s1 =>
        exact ih s1 s' h (copy_step_interest e s s1 hstep hInv)

/-- The interest-set invariant holds at loop entry. -/
theorem initState_interest : InterestInv initState :=
  ⟨fun hne => absurd rfl hne, fun hne => absurd rfl hne⟩

/-- On a master event signalling read-closed, the step either returns
`Ok(())` with the output buffer empty, or continues with `flush` set and the
output buffer non-empty. -/
theorem stepMaster_close (ev : Ev) (s : PumpState) (res : StepRes) :
    ev.readClosed = true → stepMaster ev s = some res →
      (∃ s', res = StepRes.done s' ∧ s'.output = [] ∧ s'.masterI = none) ∨
      (∃ s', res = StepRes.cont s' ∧ s'.flush = true ∧ s'.output ≠ [] ∧
        s'.masterI = none) := by
  intro hc h
  simp only [stepMaster] at h
  cases hm1 : mReadPhase ev s with
  | none => rw [hm1] at h; simp at h
  | some s1 =>
    rw [hm1] at h
    dsimp only at h
    cases hm2 : mWritePhase ev s1 with
    | none => rw [hm2] at h; simp at h
    | some s2 =>
      rw [hm2] at h
      dsimp only at h
      simp only [Option.some.injEq] at h
      subst h
      simp only [mClosePhase, hc, if_true]
      by_cases he : s2.output.isEmpty
      · rw [if_pos he]
        left
        exact ⟨_, rfl, List.isEmpty_iff.mp he, rfl⟩
      · rw [if_neg he]
        right
        refine ⟨_, rfl, rfl, ?_, rfl⟩
        intro hnil
        exact he (by rw [hnil]; rfl)

/-- A step that ends the pump with `Ok(())` other than through a tty
read-closed event leaves an empty output buffer. -/
theorem copy_step_done_output (e : PEvent) (s s' : PumpState) :
    copy_step e s = some (StepRes.done s') →
    (∀ ev, e = PEvent.tty ev → ev.readClosed = false) →
    s'.output = [] := by
  intro h hnc
  cases e with
  | master ev =>
    simp only [copy_step, stepMaster] at h
    cases hm1 : mReadPhase ev s with
    | none => rw [hm1] at h; simp at h
    | some s1 =>
      rw [hm1] at h
      dsimp only at h
      cases hm2 : mWritePhase ev s1 with
      | none => rw [hm2] at h; simp at h
      | some s2 =>
        rw [hm2] at h
        dsimp only at h
        simp only [Option.some.injEq] at h
        simp only [mClosePhase] at h
        by_cases hc : ev.readClosed
        · rw [if_pos hc] at h
          by_cases he : s2.output.isEmpty
          · rw [if_pos he] at h
            injection h with h
            rw [← h]
            exact List.isEmpty_iff.mp he
          · rw [if_neg he] at h; simp at h
        · rw [if_neg hc] at h; simp at h
  | tty ev =>
    have hc : ev.readClosed = false := hnc ev rfl
    simp only [copy_step, stepTty] at h
    cases ht1 : tWritePhase ev s with
    | none => rw [ht1] at h; simp at h
    | some r =>
      rw [ht1] at h
      cases r with
      | inr s1 =>
        dsimp only at h
        injection h with h
        injection h with h
        subst h
        simp only [tWritePhase] at ht1
        by_cases hw : ev.writable
        · rw [if_pos hw] at ht1
          cases hwa : write_all ev.wtrace s.output with
          | none => rw [hwa] at ht1; simp at ht1
          | some p =>
            obtain ⟨data2, delivered, left⟩ := p
            rw [hwa] at ht1
            dsimp only at ht1
            have hsp := write_all_spec ev.wtrace s.output data2 delivered left hwa
            by_cases hz : left = 0
            · rw [if_pos hz] at ht1
              by_cases hf : s.flush
              · rw [if_pos hf] at ht1
                simp only [Option.some.injEq, Sum.inr.injEq] at ht1
                rw [← ht1]
                dsimp only
                have := hsp.2.2.2.1
                rw [hz] at this
                exact List.eq_nil_of_length_eq_zero this
              · rw [if_neg hf] at ht1; simp at ht1
            · rw [if_neg hz] at ht1; simp at ht1
        · rw [if_neg hw] at ht1; simp at ht1
      | inl s1 =>
        dsimp only at h
        cases ht2 : tReadPhase ev s1 with
        | none => rw [ht2] at h; simp at h
        | some s2 =>
          rw [ht2] at h
          dsimp only at h
          simp only [tClosePhase, hc, if_false] at h
          simp at h

/-- A run that ends the pump with `Ok(())` without any tty read-closed event
leaves an empty output buffer. -/
theorem copy_run_done_output (evs : List PEvent) : ∀ s s',
    (∀ e ∈ evs, ∀ ev, e = PEvent.tty ev → ev.readClosed = false) →
    copy_run evs s = some (StepRes.done s') → s'.output = [] := by
  induction evs with
  | nil => intro s s' _ h; simp [copy_run] at h
  | cons e es ih =>
    intro s s' hnc h
    simp only [copy_run] at h
    cases hstep : copy_step e s with
    | none => rw [hstep] at h; simp at h
    | some r =>
      rw [hstep] at h
      cases r with
      | done s1 =>
        simp only [Option.some.injEq, StepRes.done.injEq] at h
        rw [← h]
        exact copy_step_done_output e s s1 hstep
          (fun ev he => hnc e (List.mem_cons_self _ _) ev he)
      | cont s1 =>
        exact ih s1 s' (fun x hx => hnc x (List.mem_cons_of_mem _ hx)) h

/-- On a tty event signalling read-closed, the step always returns `Ok(())`:
either through the read-closed arm, which deregisters the tty, or — when the
same event's writable handling completes the flush — through the flush exit,
with the output buffer drained and the tty still registered. -/
theorem stepTty_close (ev : Ev) (s : PumpState) :
    ev.readClosed = true →
    (ev.writable = true → write_all ev.wtrace s.output ≠ none) →
    (ev.readable = true → read_all ev.rtrace ≠ none) →
      ∃ s', stepTty ev s = some (StepRes.done s') ∧
        (s'.ttyI = none ∨ (s.flush = true ∧ s'.output = [])) := by
  intro hc hw hr
  simp only [stepTty]
  by_cases hwid : ev.writable
  · simp only [tWritePhase, hwid, if_true]
    cases hwa : write_all ev.wtrace s.output with
    | none => exact absurd hwa (hw hwid)
    | some p =>
      obtain ⟨data2, delivered, left⟩ := p
      dsimp only
      have hsp := write_all_spec ev.wtrace s.output data2 delivered left hwa
      by_cases hz : left = 0
      · rw [if_pos hz]
        by_cases hf : s.flush
        · rw [if_pos hf]
          dsimp only
          refine ⟨_, rfl, Or.inr ⟨hf, ?_⟩⟩
          dsimp only
          have := hsp.2.2.2.1
          rw [hz] at this
          exact List.eq_nil_of_length_eq_zero this
        · rw [if_neg hf]
          dsimp only
          cases hra : tReadPhase ev _ with
          | none =>
            exfalso
            simp only [tReadPhase] at hra
            by_cases hrid : ev.readable
            · rw [if_pos hrid] at hra
              cases hx : read_all ev.rtrace with
              | none => exact (hr hrid) hx
              | some q => rw [hx] at hra; simp at hra
            · rw [if_neg hrid] at hra; simp at hra
          | some s2 =>
            simp only [tClosePhase, hc, if_true]
            exact ⟨_, rfl, Or.inl rfl⟩
      · rw [if_neg hz]
        dsimp only
        cases hra : tReadPhase ev _ with
        | none =>
          exfalso
          simp only [tReadPhase] at hra
          by_cases hrid : ev.readable
          · rw [if_pos hrid] at hra
            cases hx : read_all ev.rtrace with
            | none => exact (hr hrid) hx
            | some q => rw [hx] at hra; simp at hra
          · rw [if_neg hrid] at hra; simp at hra
        | some s2 =>
          simp only [tClosePhase, hc, if_true]
          exact ⟨_, rfl, Or.inl rfl⟩
  · have ht1 : tWritePhase ev s = some (Sum.inl s) := by
      simp [tWritePhase, hwid]
    rw [ht1]
    dsimp only
    cases hra : tReadPhase ev s with
    | none =>
      exfalso
      simp only [tReadPhase] at hra
      by_cases hrid : ev.readable
      · rw [if_pos hrid] at hra
        cases hx : read_all ev.rtrace with
        | none => exact (hr hrid) hx
        | some q => rw [hx] at hra; simp at hra
      · rw [if_neg hrid] at hra; simp at hra
    | some s2 =>
      simp only [tClosePhase, hc, if_true]
      exact ⟨_, rfl, Or.inl rfl⟩

/-- Child wait status as reported by `waitpid` (`nix::sys::wait::WaitStatus`);
pids are dropped, the exit/signal numbers are kept. -/
inductive WaitStatus where
  | exited (code : Int)
  | signaled (sig : Int) (coreDumped : Bool)
  | stopped (sig : Int)
  | ptraceEvent (sig : Int) (extra : Int)
  | ptraceSyscall
  | continued
  | stillAlive
deriving DecidableEq, Repr

/-- The `match wait_result` of `handle_parent` (`src/pty.rs` lines 64-69):
normal exit maps to its code, a signal `s` to `128 + s`, any other successful
wait to `1`, and a failed wait to the error. -/
def wait_to_code (w : Except Nat WaitStatus) : Except Nat Int :=
  match w with
  | Except.ok (WaitStatus.exited code) => Except.ok code
  | Except.ok (WaitStatus.signaled sig _) => Except.ok (128 + sig)
  | Except.ok _ => Except.ok 1
  | Except.error e => Except.error e

/-- The two blocking calls `handle_parent` performs, in program order. -/
inductive PAct where
  | runCopy
  | runWait
deriving DecidableEq, Repr

/-- Environment of `handle_parent`: the value `copy(..)` returns and the value
`wait::waitpid(child, None)` returns. -/
structure ParentEnv where
  copyRes : Except Nat Unit
  waitRes : Except Nat WaitStatus
deriving Repr

/-- Embedding of `handle_parent` (`src/pty.rs` lines 54-70): `copy` is run,
then `waitpid` is run unconditionally, then `copy_result?` propagates a pump
failure, and only then the wait outcome is mapped. The second component is
the list of blocking calls performed, in order. -/
def handle_parent (env : ParentEnv) : Except Nat Int × List PAct :=
  let copy_result := env.copyRes
  let t1 := [PAct.runCopy]
  let wait_result := env.waitRes
  let t2 := t1 ++ [PAct.runWait]
  match copy_result with
  | Except.error e => (Except.error e, t2)
  | Except.ok _ => (wait_to_code wait_result, t2)

/-- Errors `handle_child` can return to its caller through `?`: the NUL
conversion failure, the signal-reset failure, and the `execvp` failure. -/
inductive ChildErr where
  | nulError
  | sigError
  | execError
deriving DecidableEq, Repr

/-- How the child arm ends: an error returned to the caller's continuation, a
panic (the `&args[0]` index on an empty vector), a successful process-image
replacement (`execvp` does not return), or `_exit(code)` — the last is
modelled for the `_exit(1)` on line 197, which `handle_child` never
reaches. -/
inductive ChildEnd where
  | retErr (e : ChildErr)
  | panicked
  | imageReplaced
  | exited (code : Nat)
deriving DecidableEq, Repr

/-- Environment of the child arm: whether the `signal` call and the `execvp`
call succeed. -/
structure ChildEnv where
  sigResetOk : Bool
  execOk : Bool
deriving DecidableEq, Repr

/-- `CString::new`: fails exactly when the token holds an embedded NUL
byte. -/
def cstring_new (s : List Nat) : Option (List Nat) :=
  if 0 ∈ s then none else some s

/-- The `collect::<Result<Vec<CString>, NulError>>()` over the argument
vector (`src/pty.rs` lines 190-193): the first embedded NUL fails the whole
conversion. -/
def cstrings_new : List (List Nat) → Option (List (List Nat))
  | [] => some []
  | a :: rest =>
    match cstring_new a with
    | none => none
    | some ca =>
      match cstrings_new rest with
      | none => none
      | some cas => some (ca :: cas)

/-- Embedding of `handle_child` (`src/pty.rs` lines 186-198): convert the
arguments (returning the NUL error through `?`), reset the SIGPIPE
disposition (returning its error through `?`), then `execvp` the target.
`execvp` returns only on failure, and the trailing `?` on line 196
propagates that failure to the caller's continuation, so the
`_exit(1)` on line 197 is unreachable: no branch of this function reaches
`ChildEnd.exited`. -/
def handle_child (args : List (List Nat)) (env : ChildEnv) : ChildEnd :=
  match cstrings_new args with
  | none => ChildEnd.retErr ChildErr.nulError
  | some cargs =>
    if env.sigResetOk = false then ChildEnd.retErr ChildErr.sigError
    else if cargs.isEmpty then ChildEnd.panicked
    else if env.execOk then ChildEnd.imageReplaced
    else ChildEnd.retErr ChildErr.execError

/-- A NUL-free argument vector converts to itself. -/
theorem cstrings_new_clean (args : List (List Nat)) :
    (∀ a ∈ args, 0 ∉ a) → cstrings_new args = some args := by
  induction args with
  | nil => intro _; rfl
  | cons a rest ih =>
    intro h
    have ha : 0 ∉ a := h a (List.mem_cons_self _ _)
    have hrest := ih (fun x hx => h x (List.mem_cons_of_mem _ hx))
    simp [cstrings_new, cstring_new, ha, hrest]

/-- An argument vector with an embedded NUL fails the conversion. -/
theorem cstrings_new_nul (args : List (List Nat)) :
    (∃ a ∈ args, 0 ∈ a) → cstrings_new args = none := by
  induction args with
  | nil => intro h; simp at h
  | cons a rest ih =>
    intro h
    by_cases ha : 0 ∈ a
    · simp [cstrings_new, cstring_new, ha]
    · obtain ⟨x, hx, hx0⟩ := h
      rcases List.mem_cons.mp hx with hxa | hxr
      · subst hxa; exact absurd hx0 ha
      · have hrest := ih ⟨x, hxr, hx0⟩
        simp [cstrings_new, cstring_new, ha, hrest]

/-- OS resources `exec` acquires before the fork arms run, in program
order. -/
inductive ExecStep where
  | openTty
  | recorderStart
  | forkPty
deriving DecidableEq, Repr

/-- Which arm of the fork the modelled process continues in. -/
inductive ForkArm where
  | parent
  | child
deriving DecidableEq, Repr

/-- Fatal errors of the launch path. -/
inductive ExecErr where
  | ioError
  | recorderError
deriving DecidableEq, Repr

/-- Environment of `exec`: whether opening `/dev/tty`, `recorder.start` and
`forkpty` succeed, which fork arm this process continues in, and the child
arm's environment. -/
structure ExecEnv where
  ttyOpenOk : Bool
  startOk : Bool
  forkOk : Bool
  arm : ForkArm
  childEnv : ChildEnv
deriving DecidableEq, Repr

/-- How the modelled `exec` run ends: a fatal launch error, the parent arm
proceeding to `handle_parent`, or the child arm ending. -/
inductive ExecOutcome where
  | failed (e : ExecErr)
  | parentContinues
  | childEnds (c : ChildEnd)
deriving DecidableEq, Repr

/-- Embedding of `exec` (`src/pty.rs` lines 16-32): open the controlling
terminal, query its size (best-effort, never fails), call `recorder.start`,
`forkpty`, then branch on the fork arm; the child arm runs `handle_child`.
The first component lists the resource-acquisition steps that completed
before the run ended. -/
def exec_run (args : List (List Nat)) (env : ExecEnv) : List ExecStep × ExecOutcome :=
  if env.ttyOpenOk = false then ([], ExecOutcome.failed ExecErr.ioError)
  else if env.startOk = false then
    ([ExecStep.openTty], ExecOutcome.failed ExecErr.recorderError)
  else if env.forkOk = false then
    ([ExecStep.openTty, ExecStep.recorderStart], ExecOutcome.failed ExecErr.ioError)
  else
    match env.arm with
    | ForkArm.parent =>
      ([ExecStep.openTty, ExecStep.recorderStart, ExecStep.forkPty],
        ExecOutcome.parentContinues)
    | ForkArm.child =>
      ([ExecStep.openTty, ExecStep.recorderStart, ExecStep.forkPty],
        ExecOutcome.childEnds (handle_child args env.childEnv))

/-- A master-readable event whose drain obtains the single byte `1` and then
sees an error. -/
def exEvM : Ev := ⟨true, false, false, [RRes.ok [1], RRes.err], []⟩

/-- The pump state after handling `exEvM` from the initial state. -/
def exS1 : PumpState :=
  ⟨[1], [], false, some Interest.r, some Interest.rw, [1], [], [1], [], [], []⟩

/-- A master event signalling only read-closed. -/
def evClose : Ev := ⟨false, false, true, [], []⟩

/-- The pump state at the successful return after handling `evClose` from the
initial state. -/
def exDone : PumpState :=
  ⟨[], [], false, none, some Interest.r, [], [], [], [], [], []⟩

/-- C1: for every master-readable (resp. terminal-readable) event in which the
drain obtains at least one byte, the recorder's output (resp. input)
notification receives exactly the newly read bytes, in order; and over any run
from the initial state, the concatenation of all output (input) notifications
equals the concatenation of all bytes read from the master (terminal) — no
gaps, no duplicates. -/
theorem claim_recorder_streams_exact :
    (∀ ev s bs n, ev.readable = true → read_all ev.rtrace = some (bs, n) → 0 < n →
      ∃ s', mReadPhase ev s = some s' ∧
        s'.recOut = s.recOut ++ bs ∧ s'.output = s.output ++ bs ∧ bs ≠ []) ∧
    (∀ ev s bs n, ev.readable = true → read_all ev.rtrace = some (bs, n) → 0 < n →
      ∃ s', tReadPhase ev s = some s' ∧
        s'.recIn = s.recIn ++ bs ∧ s'.input = s.input ++ bs ∧ bs ≠ []) ∧
    (∀ evs res, copy_run evs initState = some res →
      res.state.recOut = res.state.masterRead ∧
      res.state.recIn = res.state.ttyRead) := by
  refine ⟨?_, ?_, ?_⟩
  · intro ev s bs n hr hread hpos
    have hn := read_all_count ev.rtrace bs n hread
    simp only [mReadPhase, hr, if_true, hread]
    refine ⟨_, rfl, ?_, rfl, ?_⟩
    · dsimp only
      rw [if_pos hpos]
    · intro hnil
      rw [hnil] at hn
      simp at hn
      omega
  · intro ev s bs n hr hread hpos
    have hn := read_all_count ev.rtrace bs n hread
    simp only [tReadPhase, hr, if_true, hread]
    refine ⟨_, rfl, ?_, rfl, ?_⟩
    · dsimp only
      rw [if_pos hpos]
    · intro hnil
      rw [hnil] at hn
      simp at hn
      omega
  · intro evs res h
    have hg := copy_run_ghost evs initState res h initState_ghost
    exact ⟨hg.1, hg.2.1⟩

/-- Concrete instance of `claim_recorder_streams_exact`: one master-readable
and one terminal-readable event, each obtaining one byte, and a one-event
run. -/
theorem claim_recorder_streams_exact_witness :
    (∃ s', mReadPhase exEvM initState = some s' ∧
      s'.recOut = initState.recOut ++ [1] ∧
      s'.output = initState.output ++ [1] ∧ ([1] : List Nat) ≠ []) ∧
    (∃ s', tReadPhase exEvM initState = some s' ∧
      s'.recIn = initState.recIn ++ [1] ∧
      s'.input = initState.input ++ [1] ∧ ([1] : List Nat) ≠ []) ∧
    ((StepRes.cont exS1).state.recOut = (StepRes.cont exS1).state.masterRead ∧
      (StepRes.cont exS1).state.recIn = (StepRes.cont exS1).state.ttyRead) :=
  ⟨claim_recorder_streams_exact.1 exEvM initState [1] 1 rfl rfl (by decide),
    claim_recorder_streams_exact.2.1 exEvM initState [1] 1 rfl rfl (by decide),
    claim_recorder_streams_exact.2.2 [PEvent.master exEvM] (StepRes.cont exS1) rfl⟩

/-- C2: when `write_all` returns `left`, the buffer holds exactly the last
`left` bytes of its original contents, unchanged and in order, and the first
`len - left` bytes were delivered to the sink in order; and over any run of
the pump, the bytes ever appended to each transfer buffer are exactly the
bytes removed from it followed by its current contents. -/
theorem claim_write_all_partial_integrity :
    (∀ trace data d2 del left, write_all trace data = some (d2, del, left) →
      d2 = data.drop (data.length - left) ∧
      del = data.take (data.length - left) ∧
      del ++ d2 = data ∧
      data.length = del.length + d2.length) ∧
    (∀ evs res, copy_run evs initState = some res →
      res.state.ttyWritten ++ res.state.output = res.state.masterRead ∧
      res.state.masterWritten ++ res.state.input = res.state.ttyRead) := by
  constructor
  · intro trace data d2 del left h
    have hsp := write_all_spec trace data d2 del left h
    refine ⟨hsp.2.1, hsp.2.2.1, hsp.1, ?_⟩
    rw [← hsp.1, List.length_append]
  · intro evs res h
    have hg := copy_run_ghost evs initState res h initState_ghost
    exact ⟨hg.2.2.1, hg.2.2.2⟩

/-- Concrete instance of `claim_write_all_partial_integrity`: a sink that
accepts one byte of three and then errors, and a one-event run. -/
theorem claim_write_all_partial_integrity_witness :
    (([8, 9] : List Nat) = [7, 8, 9].drop ([7, 8, 9].length - 2) ∧
      ([7] : List Nat) = [7, 8, 9].take ([7, 8, 9].length - 2) ∧
      ([7] : List Nat) ++ [8, 9] = [7, 8, 9] ∧
      ([7, 8, 9] : List Nat).length = [7].length + [8, 9].length) ∧
    ((StepRes.cont exS1).state.ttyWritten ++ (StepRes.cont exS1).state.output =
        (StepRes.cont exS1).state.masterRead ∧
      (StepRes.cont exS1).state.masterWritten ++ (StepRes.cont exS1).state.input =
        (StepRes.cont exS1).state.ttyRead) :=
  ⟨claim_write_all_partial_integrity.1 [WRes.ok 1, WRes.err] [7, 8, 9] [8, 9] [7] 2 rfl,
    claim_write_all_partial_integrity.2 [PEvent.master exEvM] (StepRes.cont exS1) rfl⟩

/-- C3: on a master read-closed event the pump either ends successfully at
once with the output buffer empty, or sets the flush flag and keeps running
with the output buffer non-empty; and no run without a terminal read-closed
event ever ends successfully while undelivered child output remains
buffered. -/
theorem claim_master_close_flush :
    (∀ ev s res, ev.readClosed = true → stepMaster ev s = some res →
      (∃ s', res = StepRes.done s' ∧ s'.output = []) ∨
      (∃ s', res = StepRes.cont s' ∧ s'.flush = true ∧ s'.output ≠ [])) ∧
    (∀ evs s', (∀ e ∈ evs, ∀ ev, e = PEvent.tty ev → ev.readClosed = false) →
      copy_run evs initState = some (StepRes.done s') → s'.output = []) := by
  constructor
  · intro ev s res hc h
    rcases stepMaster_close ev s res hc h with ⟨s', h1, h2, _⟩ | ⟨s', h1, h2, h3, _⟩
    · exact Or.inl ⟨s', h1, h2⟩
    · exact Or.inr ⟨s', h1, h2, h3⟩
  · intro evs s' hnc h
    exact copy_run_done_output evs initState s' hnc h

/-- Concrete instance of `claim_master_close_flush`: a master read-closed
event on an empty output buffer, and the run consisting of just that
event. -/
theorem claim_master_close_flush_witness :
    ((∃ s', StepRes.done exDone = StepRes.done s' ∧ s'.output = []) ∨
      (∃ s', StepRes.done exDone = StepRes.cont s' ∧ s'.flush = true ∧
        s'.output ≠ [])) ∧
    exDone.output = [] :=
  ⟨claim_master_close_flush.1 evClose initState (StepRes.done exDone) rfl rfl,
    claim_master_close_flush.2 [PEvent.master evClose] exDone
      (by
        intro e he ev hev
        rw [List.mem_singleton] at he
        rw [he] at hev
        exact PEvent.noConfusion hev)
      rfl⟩

/-- C4 counterexample: a terminal event that is writable and read-closed at
once, while the flush flag is set and the sink drains the whole output
buffer, makes the pump end successfully through the flush exit without
deregistering the terminal descriptor — against the claim that a terminal
read-closed event always deregisters the terminal. -/
theorem claim_tty_close_counterexample :
    (⟨false, true, true, [], [WRes.ok 1]⟩ : Ev).readClosed = true ∧
    stepTty ⟨false, true, true, [], [WRes.ok 1]⟩
        ⟨[5], [], true, none, some Interest.rw, [5], [], [5], [], [], []⟩ =
      some (StepRes.done
        ⟨[], [], true, none, some Interest.rw, [5], [], [5], [], [], [5]⟩) ∧
    (⟨[], [], true, none, some Interest.rw, [5], [], [5], [], [], [5]⟩
      : PumpState).ttyI ≠ none :=
  ⟨rfl, by decide, by decide⟩

/-- C4 (amended): on a terminal read-closed event the pump always ends
successfully at that event, whatever the buffers hold; it deregisters the
terminal, except when the same event's writable handling completes the flush
(flush flag set, output fully drained), in which case it ends successfully
without the deregistration. -/
theorem claim_tty_close_amended (ev : Ev) (s : PumpState) :
    ev.readClosed = true →
    (ev.writable = true → write_all ev.wtrace s.output ≠ none) →
    (ev.readable = true → read_all ev.rtrace ≠ none) →
      ∃ s', stepTty ev s = some (StepRes.done s') ∧
        (s'.ttyI = none ∨ (s.flush = true ∧ s'.output = [])) :=
  stepTty_close ev s

/-- Concrete instance of `claim_tty_close_amended`: a bare terminal
read-closed event while both buffers are non-empty. -/
theorem claim_tty_close_amended_witness :
    ∃ s', stepTty ⟨false, false, true, [], []⟩
        ⟨[9], [7], false, some Interest.rw, some Interest.rw, [9], [7], [9], [7], [], []⟩ =
      some (StepRes.done s') ∧
      (s'.ttyI = none ∨
        ((⟨[9], [7], false, some Interest.rw, some Interest.rw, [9], [7], [9], [7], [], []⟩
          : PumpState).flush = true ∧ s'.output = [])) :=
  claim_tty_close_amended ⟨false, false, true, [], []⟩
    ⟨[9], [7], false, some Interest.rw, some Interest.rw, [9], [7], [9], [7], [], []⟩
    rfl (fun h => absurd h (by decide)) (fun h => absurd h (by decide))

/-- C5: a successful wait with normal termination code `n` yields `n`,
termination by signal `s` yields `128 + s`, any other successful wait yields
`1`, and a successful wait never yields an error. -/
theorem claim_exit_code_mapping :
    (∀ n : Int, wait_to_code (Except.ok (WaitStatus.exited n)) = Except.ok n) ∧
    (∀ s : Int, ∀ b : Bool,
      wait_to_code (Except.ok (WaitStatus.signaled s b)) = Except.ok (128 + s)) ∧
    (∀ s : Int, wait_to_code (Except.ok (WaitStatus.stopped s)) = Except.ok 1) ∧
    (∀ s e : Int,
      wait_to_code (Except.ok (WaitStatus.ptraceEvent s e)) = Except.ok 1) ∧
    wait_to_code (Except.ok WaitStatus.ptraceSyscall) = Except.ok 1 ∧
    wait_to_code (Except.ok WaitStatus.continued) = Except.ok 1 ∧
    wait_to_code (Except.ok WaitStatus.stillAlive) = Except.ok 1 ∧
    (∀ w : WaitStatus, ∃ n : Int, wait_to_code (Except.ok w) = Except.ok n) := by
  refine ⟨fun n => rfl, fun s b => rfl, fun s => rfl, fun s e => rfl, rfl, rfl, rfl, ?_⟩
  intro w
  cases w <;> exact ⟨_, rfl⟩

/-- C6: the parent performs the blocking wait after the pump returns in every
case; a pump failure is the value surfaced even when the wait also fails; and
a wait failure is surfaced when the pump succeeded. -/
theorem claim_parent_always_waits :
    (∀ env, (handle_parent env).2 = [PAct.runCopy, PAct.runWait]) ∧
    (∀ env e, env.copyRes = Except.error e →
      (handle_parent env).1 = Except.error e) ∧
    (∀ env e, env.copyRes = Except.ok () → env.waitRes = Except.error e →
      (handle_parent env).1 = Except.error e) := by
  refine ⟨?_, ?_, ?_⟩
  · intro env
    simp only [handle_parent]
    cases env.copyRes <;> rfl
  · intro env e h
    simp [handle_parent, h]
  · intro env e h1 h2
    simp [handle_parent, h1, h2, wait_to_code]

/-- Concrete instance of `claim_parent_always_waits`: a failed pump with a
failed wait, and a successful pump with a failed wait. -/
theorem claim_parent_always_waits_witness :
    (handle_parent ⟨Except.error 7, Except.error 3⟩).2
        = [PAct.runCopy, PAct.runWait] ∧
    (handle_parent ⟨Except.error 7, Except.error 3⟩).1 = Except.error 7 ∧
    (handle_parent ⟨Except.ok (), Except.error 3⟩).1 = Except.error 3 :=
  ⟨claim_parent_always_waits.1 ⟨Except.error 7, Except.error 3⟩,
    claim_parent_always_waits.2.1 ⟨Except.error 7, Except.error 3⟩ 7 rfl,
    claim_parent_always_waits.2.2 ⟨Except.ok (), Except.error 3⟩ 3 rfl rfl⟩

/-- C7: evaluated at a failing input — a NUL-free one-token argument vector
(the bytes of "nope"), signal reset succeeding, exec replacement failing —
the child arm returns the `execvp` error to the caller's continuation: the
`?` on line 196 propagates the failure, so the `_exit(1)` on line 197 never
runs and the child does not end through `ChildEnd.exited 1` as the spec
describes. -/
theorem claim_child_exec_failure_returns_err :
    handle_child [[110, 111, 112, 101]] ⟨true, false⟩ =
      ChildEnd.retErr ChildErr.execError ∧
    handle_child [[110, 111, 112, 101]] ⟨true, false⟩ ≠ ChildEnd.exited 1 :=
  ⟨rfl, by decide⟩

/-- C8 counterexample: with an argument vector whose only token is the NUL
byte, the run opens the controlling terminal, starts the recorder sink and
forks the pseudo-terminal before the NUL is detected — the NUL failure
happens in the child arm after all three, and the parent arm proceeds to the
pump without any configuration failure. -/
theorem claim_nul_check_counterexample :
    exec_run [[0]] ⟨true, true, true, ForkArm.child, ⟨true, true⟩⟩ =
      ([ExecStep.openTty, ExecStep.recorderStart, ExecStep.forkPty],
        ExecOutcome.childEnds (ChildEnd.retErr ChildErr.nulError)) ∧
    exec_run [[0]] ⟨true, true, true, ForkArm.parent, ⟨true, true⟩⟩ =
      ([ExecStep.openTty, ExecStep.recorderStart, ExecStep.forkPty],
        ExecOutcome.parentContinues) :=
  ⟨by decide, by decide⟩

/-- C8 (amended): an argument vector with an embedded NUL does not fail before
OS resources are touched: when the terminal open, the sink start and the fork
all succeed, the child arm returns the NUL conversion error after those three
steps and before the signal reset and the exec, while the parent arm proceeds
to the pump. -/
theorem claim_nul_check_amended :
    ∀ (args : List (List Nat)) (env : ExecEnv), (∃ a ∈ args, 0 ∈ a) →
      env.ttyOpenOk = true → env.startOk = true → env.forkOk = true →
      ((env.arm = ForkArm.child →
        exec_run args env =
          ([ExecStep.openTty, ExecStep.recorderStart, ExecStep.forkPty],
            ExecOutcome.childEnds (ChildEnd.retErr ChildErr.nulError))) ∧
      (env.arm = ForkArm.parent →
        exec_run args env =
          ([ExecStep.openTty, ExecStep.recorderStart, ExecStep.forkPty],
            ExecOutcome.parentContinues))) := by
  intro args env hnul h1 h2 h3
  constructor
  · intro h4
    simp [exec_run, h1, h2, h3, h4, handle_child, cstrings_new_nul args hnul]
  · intro h4
    simp [exec_run, h1, h2, h3, h4]

/-- Concrete instance of `claim_nul_check_amended`: a two-token vector whose
second token embeds a NUL. -/
theorem claim_nul_check_amended_witness :
    ((⟨true, true, true, ForkArm.child, ⟨true, true⟩⟩ : ExecEnv).arm = ForkArm.child →
      exec_run [[104], [0, 105]] ⟨true, true, true, ForkArm.child, ⟨true, true⟩⟩ =
        ([ExecStep.openTty, ExecStep.recorderStart, ExecStep.forkPty],
          ExecOutcome.childEnds (ChildEnd.retErr ChildErr.nulError))) ∧
    ((⟨true, true, true, ForkArm.child, ⟨true, true⟩⟩ : ExecEnv).arm = ForkArm.parent →
      exec_run [[104], [0, 105]] ⟨true, true, true, ForkArm.child, ⟨true, true⟩⟩ =
        ([ExecStep.openTty, ExecStep.recorderStart, ExecStep.forkPty],
          ExecOutcome.parentContinues)) :=
  claim_nul_check_amended [[104], [0, 105]]
    ⟨true, true, true, ForkArm.child, ⟨true, true⟩⟩ (by decide) rfl rfl rfl

/-- C9 counterexample: a source reporting "no more data" (a zero-byte read)
does not stop the drain loop — `read_all` has not returned after one, after
four, or after a byte followed by such a report, against the claim that the
loop stops when the source reports no more data. -/
theorem claim_read_all_counterexample :
    read_all [RRes.ok []] = none ∧
    read_all (List.replicate 4 (RRes.ok [])) = none ∧
    read_all [RRes.ok [3], RRes.ok []] = none :=
  ⟨rfl, rfl, rfl⟩

/-- C9 (amended): the drain loop stops exactly at the source's first error
report — zero-byte reads do not stop it — and upon return it has appended
precisely the bytes obtained before that error, in order, returning their
count and never surfacing the error. -/
theorem claim_read_all_amended :
    (∀ pre rest, (∀ r ∈ pre, r ≠ RRes.err) →
      read_all (pre ++ RRes.err :: rest) =
        some (okBytes pre, (okBytes pre).length)) ∧
    (∀ t, (∀ r ∈ t, r ≠ RRes.err) → read_all t = none) ∧
    (∀ t bs n, read_all t = some (bs, n) → n = bs.length) :=
  ⟨read_all_first_err, read_all_no_err, fun t => read_all_count t⟩

/-- Concrete instance of `claim_read_all_amended`: one byte then an error;
a one-entry errorless trace; the immediate-error trace. -/
theorem claim_read_all_amended_witness :
    read_all ([RRes.ok [2]] ++ RRes.err :: []) =
      some (okBytes [RRes.ok [2]], (okBytes [RRes.ok [2]]).length) ∧
    read_all [RRes.ok [4]] = none ∧
    (0 : Nat) = ([] : List Nat).length :=
  ⟨claim_read_all_amended.1 [RRes.ok [2]] [] (by decide),
    claim_read_all_amended.2.1 [RRes.ok [4]] (by decide),
    claim_read_all_amended.2.2 [RRes.err] [] 0 rfl⟩

/-- C10: whenever the pump is back at the poller, a non-empty input buffer
with a still-registered master implies the master's interest includes
writable, and a non-empty output buffer implies the terminal's interest
includes writable. -/
theorem claim_interest_invariant :
    ∀ evs s', copy_run evs initState = some (StepRes.cont s') →
      (s'.input ≠ [] → ∀ i, s'.masterI = some i → i = Interest.rw) ∧
      (s'.output ≠ [] → s'.ttyI = some Interest.rw) := by
  intro evs s' h
  exact copy_run_interest evs initState s' h initState_interest

/-- Concrete instance of `claim_interest_invariant`: after one master-readable
event that fills the output buffer, the terminal interest includes
writable. -/
theorem claim_interest_invariant_witness :
    (exS1.input ≠ [] → ∀ i, exS1.masterI = some i → i = Interest.rw) ∧
    (exS1.output ≠ [] → exS1.ttyI = some Interest.rw) :=
  claim_interest_invariant [PEvent.master exEvM] exS1 rfl

end Pty
